import Mathlib

/-!
Verification development for the tox iLQR/MPC pendulum example
(`examples/ilqr/pendulum_mpc_py.py`).

Costs and vector components are embedded as rationals (`ℚ`), standing for the
program's float64 values; vectors are lists of rationals.  The driving script
is embedded directly from the source; the `tox` library pieces it imports
(`Box`, `Trajectory`, `discretize_dynamics`, `ilqr.py_solver`) are not part of
the visible source tree and are modelled from the specification, as marked on
each definition.
-/

namespace Tox

/-- Modelled from the spec: fatal solver error kinds (`NumericalDivergence`,
`NonPositiveDefiniteHessian`) that propagate to the caller; line-search
exhaustion is deliberately NOT among them, since the spec classifies it as a
normal early-termination signal. -/
inductive SolverError : Type
  | NumericalDivergence : SolverError
  | NonPositiveDefiniteHessian : SolverError
deriving DecidableEq, Repr

/-- Modelled from the spec: immutable hyperparameter record; the driving
script constructs it as `ilqr.Hyperparameters(max_iter=25)`.  The spec
requires `max_iter : int > 0`; positivity is carried as a hypothesis where
needed. -/
structure Hyperparameters : Type where
  max_iter : Nat
deriving DecidableEq, Repr

/-- Modelled from the spec: the forward-pass line search of one iLQR
iteration.  `cands` abstracts the candidate `(policy, trajectory, total cost)`
triples obtained by rolling out at the decreasing sequence of step-size
multipliers; the search accepts the first candidate whose total cost is lower
than the previous iteration's accepted cost `prevCost`, and yields `none`
when no step size improves the cost. -/
def lineSearch {P T : Type} (prevCost : ℚ) (cands : List (P × T × ℚ)) :
    Option (P × T × ℚ) :=
  cands.find? (fun cand => decide (cand.2.2 < prevCost))

/-- Modelled from the spec: the outer iteration loop of the iLQR solver,
run on fuel `n` (the remaining iteration budget out of `max_iter`).
`iterate p r` abstracts one backward pass followed by the generation of the
forward-pass line-search candidates around the current accepted
`(policy, reference)`; it may fail with a fatal `SolverError`, which
propagates.  Each iteration records the currently accepted cost into the
trace: on acceptance the new lower cost, on line-search exhaustion the
unchanged cost, after which the loop terminates early and returns the best
`(policy, reference)` found so far. -/
def solverLoop {P T : Type}
    (iterate : P → T → Except SolverError (List (P × T × ℚ))) :
    Nat → P → T → ℚ → Except SolverError (P × T × List ℚ)
  | 0, p, r, _ => .ok (p, r, [])
  | n + 1, p, r, c =>
    match iterate p r with
    | .error e => .error e
    | .ok cands =>
      match lineSearch c cands with
      | none => .ok (p, r, [c])
      | some (p', r', c') =>
        match solverLoop iterate n p' r' c' with
        | .error e => .error e
        | .ok (pF, rF, tr) => .ok (pF, rF, c' :: tr)

/-- Modelled from the spec: the number of outer iterations actually run by
`solverLoop` on the same inputs (each iteration either accepts a candidate
and continues, or exhausts the line search and stops). -/
def solverIterations {P T : Type}
    (iterate : P → T → Except SolverError (List (P × T × ℚ))) :
    Nat → P → T → ℚ → Nat
  | 0, _, _, _ => 0
  | n + 1, p, r, c =>
    match iterate p r with
    | .error _ => 0
    | .ok cands =>
      match lineSearch c cands with
      | none => 1
      | some (p', r', c') => 1 + solverIterations iterate n p' r' c'

/-- Modelled from the spec: `ilqr.py_solver`.  The cost callbacks, goal,
dynamics, initial state and the two constraint boxes of the real signature
are absorbed into the abstract `iterate` (backward pass plus line-search
candidate generation) and `rolloutCost` (total cost of the initial rollout
of the warm-start policy around the warm-start reference); the solver then
runs up to `options.max_iter` outer iterations and returns the improved
policy, the improved reference and the cost trace. -/
def py_solver {P T : Type}
    (iterate : P → T → Except SolverError (List (P × T × ℚ)))
    (rolloutCost : P → T → ℚ) (policy : P) (reference : T)
    (options : Hyperparameters) : Except SolverError (P × T × List ℚ) :=
  solverLoop iterate options.max_iter policy reference (rolloutCost policy reference)

/-- Every entry of the trace produced by `solverLoop` is at most the cost the
loop was entered with. -/
theorem solverLoop_trace_le {P T : Type}
    (iterate : P → T → Except SolverError (List (P × T × ℚ))) :
    ∀ (n : Nat) (p : P) (r : T) (c : ℚ) (pF : P) (rF : T) (tr : List ℚ),
      solverLoop iterate n p r c = .ok (pF, rF, tr) → ∀ x ∈ tr, x ≤ c := by
  intro n
  induction n with
  | zero =>
    intro p r c pF rF tr h x hx
    simp only [solverLoop, Except.ok.injEq, Prod.mk.injEq] at h
    rcases h with ⟨-, -, h⟩
    subst h
    simp at hx
  | succ n ih =>
    intro p r c pF rF tr h x hx
    rw [solverLoop] at h
    split at h
    · exact absurd h (by simp)
    · split at h
      · simp only [Except.ok.injEq, Prod.mk.injEq] at h
        rcases h with ⟨-, -, h⟩
        subst h
        simp at hx
        exact hx.le
      · rename_i cands hit p' r' c' hls
        have hc' : c' < c := by
          have := List.find?_some hls
          simpa using this
        split at h
        · exact absurd h (by simp)
        · rename_i pF' rF' tr' hrec
          simp only [Except.ok.injEq, Prod.mk.injEq] at h
          rcases h with ⟨-, -, h⟩
          subst h
          rcases List.mem_cons.mp hx with hx | hx
          · subst hx; exact le_of_lt hc'
          · exact le_trans (ih p' r' c' pF' rF' tr' hrec x hx) (le_of_lt hc')

/-- The trace produced by `solverLoop` is non-increasing entry to entry. -/
theorem solverLoop_trace_chain {P T : Type}
    (iterate : P → T → Except SolverError (List (P × T × ℚ))) :
    ∀ (n : Nat) (p : P) (r : T) (c : ℚ) (pF : P) (rF : T) (tr : List ℚ),
      solverLoop iterate n p r c = .ok (pF, rF, tr) →
      List.Chain' (fun a b => b ≤ a) tr := by
  intro n
  induction n with
  | zero =>
    intro p r c pF rF tr h
    simp only [solverLoop, Except.ok.injEq, Prod.mk.injEq] at h
    rcases h with ⟨-, -, h⟩
    subst h
    exact List.chain'_nil
  | succ n ih =>
    intro p r c pF rF tr h
    rw [solverLoop] at h
    split at h
    · exact absurd h (by simp)
    · split at h
      · simp only [Except.ok.injEq, Prod.mk.injEq] at h
        rcases h with ⟨-, -, h⟩
        subst h
        exact List.chain'_singleton c
      · rename_i cands hit p' r' c' hls
        split at h
        · exact absurd h (by simp)
        · rename_i pF' rF' tr' hrec
          simp only [Except.ok.injEq, Prod.mk.injEq] at h
          rcases h with ⟨-, -, h⟩
          subst h
          rw [List.chain'_cons']
          constructor
          · intro y hy
            exact solverLoop_trace_le iterate n p' r' c' pF' rF' tr' hrec y
              (List.mem_of_mem_head? hy)
          · exact ih p' r' c' pF' rF' tr' hrec

/-- A successful `solverLoop` run on fuel `n` records at most `n` entries. -/
theorem solverLoop_trace_len_le {P T : Type}
    (iterate : P → T → Except SolverError (List (P × T × ℚ))) :
    ∀ (n : Nat) (p : P) (r : T) (c : ℚ) (pF : P) (rF : T) (tr : List ℚ),
      solverLoop iterate n p r c = .ok (pF, rF, tr) → tr.length ≤ n := by
  intro n
  induction n with
  | zero =>
    intro p r c pF rF tr h
    simp only [solverLoop, Except.ok.injEq, Prod.mk.injEq] at h
    rcases h with ⟨-, -, h⟩
    subst h
    simp
  | succ n ih =>
    intro p r c pF rF tr h
    rw [solverLoop] at h
    split at h
    · exact absurd h (by simp)
    · split at h
      · simp only [Except.ok.injEq, Prod.mk.injEq] at h
        rcases h with ⟨-, -, h⟩
        subst h
        simp
      · rename_i cands hit p' r' c' hls
        split at h
        · exact absurd h (by simp)
        · rename_i pF' rF' tr' hrec
          simp only [Except.ok.injEq, Prod.mk.injEq] at h
          rcases h with ⟨-, -, h⟩
          subst h
          simpa using ih p' r' c' pF' rF' tr' hrec

/-- A successful `solverLoop` run on positive fuel records a nonempty trace. -/
theorem solverLoop_trace_ne_nil {P T : Type}
    (iterate : P → T → Except SolverError (List (P × T × ℚ)))
    (n : Nat) (p : P) (r : T) (c : ℚ) (pF : P) (rF : T) (tr : List ℚ)
    (h : solverLoop iterate (n + 1) p r c = .ok (pF, rF, tr)) : tr ≠ [] := by
  rw [solverLoop] at h
  split at h
  · exact absurd h (by simp)
  · split at h
    · simp only [Except.ok.injEq, Prod.mk.injEq] at h
      rcases h with ⟨-, -, h⟩
      subst h
      simp
    · split at h
      · exact absurd h (by simp)
      · simp only [Except.ok.injEq, Prod.mk.injEq] at h
        rcases h with ⟨-, -, h⟩
        subst h
        simp

/-- The trace of a successful `solverLoop` run has exactly one entry per
outer iteration actually run. -/
theorem solverLoop_trace_length_eq {P T : Type}
    (iterate : P → T → Except SolverError (List (P × T × ℚ))) :
    ∀ (n : Nat) (p : P) (r : T) (c : ℚ) (pF : P) (rF : T) (tr : List ℚ),
      solverLoop iterate n p r c = .ok (pF, rF, tr) →
      tr.length = solverIterations iterate n p r c := by
  intro n
  induction n with
  | zero =>
    intro p r c pF rF tr h
    simp only [solverLoop, Except.ok.injEq, Prod.mk.injEq] at h
    rcases h with ⟨-, -, h⟩
    subst h
    simp [solverIterations]
  | succ n ih =>
    intro p r c pF rF tr h
    rw [solverLoop] at h
    split at h
    · exact absurd h (by simp)
    · split at h
      · rename_i x1 cands hit x2 hls
        simp only [Except.ok.injEq, Prod.mk.injEq] at h
        rcases h with ⟨-, -, h⟩
        subst h
        simp [solverIterations, hit, hls]
      · rename_i x1 cands hit x2 p' r' c' hls
        split at h
        · exact absurd h (by simp)
        · rename_i x3 pF' rF' tr' hrec
          simp only [Except.ok.injEq, Prod.mk.injEq] at h
          rcases h with ⟨-, -, h⟩
          subst h
          have hlen := ih p' r' c' pF' rF' tr' hrec
          simp only [solverIterations, hit, hls, List.length_cons]
          omega

/-- A non-increasing chain is non-increasing at successive positions. -/
theorem chain_le_getD (l : List ℚ) (hl : List.Chain' (fun a b => b ≤ a) l) :
    ∀ i : Nat, i + 1 < l.length → l.getD (i + 1) 0 ≤ l.getD i 0 := by
  induction l with
  | nil => intro i hi; simp at hi
  | cons a l ih =>
    intro i hi
    cases i with
    | zero =>
      cases l with
      | nil => simp at hi
      | cons b l' =>
        rw [List.chain'_cons] at hl
        simpa using hl.1
    | succ i =>
      have hl' : List.Chain' (fun a b => b ≤ a) l := hl.tail
      have := ih hl' i (by simpa using Nat.lt_of_succ_lt_succ hi)
      simpa using this

/-- C1: every call to the iLQR solver (`py_solver`) that returns a cost trace
returns one that is non-increasing from entry to entry: for every index `i`
with `0 < i < tr.length`, `tr[i] ≤ tr[i-1]`. -/
theorem py_solver_cost_trace_monotone {P T : Type}
    (iterate : P → T → Except SolverError (List (P × T × ℚ)))
    (rolloutCost : P → T → ℚ) (policy : P) (reference : T)
    (options : Hyperparameters) (pF : P) (rF : T) (tr : List ℚ)
    (h : py_solver iterate rolloutCost policy reference options = .ok (pF, rF, tr)) :
    ∀ i : Nat, 0 < i → i < tr.length → tr.getD i 0 ≤ tr.getD (i - 1) 0 := by
  intro i hi hilen
  have hchain : List.Chain' (fun a b => b ≤ a) tr :=
    solverLoop_trace_chain iterate options.max_iter policy reference
      (rolloutCost policy reference) pF rF tr h
  have hsucc : i - 1 + 1 = i := Nat.succ_pred_eq_of_pos hi
  have := chain_le_getD tr hchain (i - 1) (by rw [hsucc]; exact hilen)
  rwa [hsucc] at this

/-- C5: when no candidate of the forward-pass line search improves on the
previous accepted cost, the solver terminates iterating early and still
returns normally (`.ok`) with the best policy, reference and trace found so
far; line-search exhaustion never surfaces as an error. -/
theorem lineSearch_exhausted_returns_ok {P T : Type}
    (iterate : P → T → Except SolverError (List (P × T × ℚ)))
    (n : Nat) (p : P) (r : T) (c : ℚ) (cands : List (P × T × ℚ))
    (hit : iterate p r = .ok cands)
    (hno : ∀ cand ∈ cands, ¬ cand.2.2 < c) :
    solverLoop iterate (n + 1) p r c = .ok (p, r, [c]) := by
  have hls : lineSearch c cands = none := by
    apply List.find?_eq_none.mpr
    intro cand hcand
    simpa using hno cand hcand
  simp [solverLoop, hit, hls]

/-- C6: a successful solver call with `options.max_iter > 0` runs between one
and `options.max_iter` outer iterations, and the returned cost trace has
length equal to the number of iterations actually run — in particular it is
nonempty, so the driver's access to `trace[-1]` is defined. -/
theorem py_solver_iteration_bounds {P T : Type}
    (iterate : P → T → Except SolverError (List (P × T × ℚ)))
    (rolloutCost : P → T → ℚ) (policy : P) (reference : T)
    (options : Hyperparameters) (pF : P) (rF : T) (tr : List ℚ)
    (hpos : 0 < options.max_iter)
    (h : py_solver iterate rolloutCost policy reference options = .ok (pF, rF, tr)) :
    tr.length = solverIterations iterate options.max_iter policy reference
        (rolloutCost policy reference)
    ∧ 1 ≤ tr.length ∧ tr.length ≤ options.max_iter := by
  obtain ⟨m, hm⟩ := Nat.exists_eq_succ_of_ne_zero (Nat.pos_iff_ne_zero.mp hpos)
  simp only [py_solver] at h
  refine ⟨solverLoop_trace_length_eq iterate options.max_iter policy reference
    (rolloutCost policy reference) pF rF tr h, ?_, ?_⟩
  · rw [hm] at h
    have := solverLoop_trace_ne_nil iterate m policy reference
      (rolloutCost policy reference) pF rF tr h
    exact Nat.succ_le_of_lt (List.length_pos.mpr this)
  · exact solverLoop_trace_len_le iterate options.max_iter policy reference
      (rolloutCost policy reference) pF rF tr h

/-- Concrete abstract-iteration function used to exercise the solver model:
every backward pass succeeds and proposes a single candidate of cost 1. -/
def witIterate : Unit → Unit → Except SolverError (List (Unit × Unit × ℚ)) :=
  fun _ _ => .ok [((), (), 1)]

/-- Concrete initial-rollout cost used to exercise the solver model. -/
def witRollout : Unit → Unit → ℚ := fun _ _ => 2

/-- Concrete abstract-iteration function whose only candidate never improves
the cost, forcing line-search exhaustion. -/
def witIterateStuck : Unit → Unit → Except SolverError (List (Unit × Unit × ℚ)) :=
  fun _ _ => .ok [((), (), 5)]

/-- C1 witness: a concrete solver run returning the trace `[1, 1]`, whose
entry at index 1 is at most the entry at index 0. -/
theorem py_solver_cost_trace_monotone_witness :
    (py_solver witIterate witRollout () () ⟨2⟩ = .ok ((), (), [1, 1])
      ∧ 0 < 1 ∧ 1 < ([1, 1] : List ℚ).length)
    ∧ ([(1 : ℚ), 1] : List ℚ).getD 1 0 ≤ ([(1 : ℚ), 1] : List ℚ).getD (1 - 1) 0 :=
  ⟨⟨rfl, Nat.one_pos, by simp⟩,
    py_solver_cost_trace_monotone witIterate witRollout () () ⟨2⟩ () () [1, 1]
      rfl 1 Nat.one_pos (by simp)⟩

/-- C5 witness: with the stuck iteration function and previous cost 3, the
loop returns normally with the incoming policy/reference and the trace `[3]`. -/
theorem lineSearch_exhausted_returns_ok_witness :
    (witIterateStuck () () = .ok [((), (), 5)]
      ∧ ∀ cand ∈ [((), (), (5 : ℚ))], ¬ cand.2.2 < (3 : ℚ))
    ∧ solverLoop witIterateStuck 1 () () 3 = .ok ((), (), [3]) :=
  ⟨⟨rfl, by decide⟩,
    lineSearch_exhausted_returns_ok witIterateStuck 0 () () 3 [((), (), 5)]
      rfl (by decide)⟩

/-- C6 witness: the concrete solver run with `max_iter = 2` returns a trace
of length 2, equal to the number of iterations run, between 1 and 2. -/
theorem py_solver_iteration_bounds_witness :
    (0 < (Hyperparameters.mk 2).max_iter
      ∧ py_solver witIterate witRollout () () ⟨2⟩ = .ok ((), (), [1, 1]))
    ∧ ([(1 : ℚ), 1] : List ℚ).length = solverIterations witIterate 2 () () (witRollout () ())
    ∧ 1 ≤ ([(1 : ℚ), 1] : List ℚ).length
    ∧ ([(1 : ℚ), 1] : List ℚ).length ≤ (Hyperparameters.mk 2).max_iter :=
  ⟨⟨Nat.zero_lt_two, rfl⟩,
    py_solver_iteration_bounds witIterate witRollout () () ⟨2⟩ () () [1, 1]
      Nat.zero_lt_two rfl⟩

/-- Modelled from the spec: clamp one scalar component into `[lo, hi]`; the
elementwise operation underlying `Box.clip`. -/
def clamp (lo hi x : ℚ) : ℚ := min hi (max lo x)

/-- Modelled from the spec: `tox.objects.Box`, an axis-aligned box constraint
over a vector space, holding lower bounds, upper bounds and the declared
dimensionality. -/
structure Box : Type where
  low : List ℚ
  high : List ℚ
  shape : Nat
deriving DecidableEq, Repr

/-- Modelled from the spec: `Box.clip` returns an elementwise-clamped copy of
the input vector without mutating it, and fails (`ShapeMismatch`, here
`none`) when the input dimensionality differs from the declared `shape`. -/
def Box.clip (b : Box) (v : List ℚ) : Option (List ℚ) :=
  if v.length = b.shape then
    some (List.zipWith (fun x p => clamp p.1 p.2 x) v (b.low.zip b.high))
  else none

/-- The spec's data-model invariant for `Box`: bounds have the declared
dimensionality and `low[i] ≤ high[i]` for all `i`. -/
def Box.wf (b : Box) : Prop :=
  b.low.length = b.shape ∧ b.high.length = b.shape ∧
    ∀ p ∈ b.low.zip b.high, p.1 ≤ p.2

/-- Clamping into `[lo, hi]` with `lo ≤ hi` is idempotent on scalars. -/
theorem clamp_idem (lo hi x : ℚ) (h : lo ≤ hi) :
    clamp lo hi (clamp lo hi x) = clamp lo hi x := by
  unfold clamp
  rcases le_total hi (max lo x) with hc | hc
  · rw [min_eq_left hc, max_eq_right h, min_self]
  · rw [min_eq_right hc, max_eq_right (le_max_left lo x), min_eq_right hc]

/-- Clamping fixes any value already inside the bounds. -/
theorem clamp_of_mem (lo hi x : ℚ) (h1 : lo ≤ x) (h2 : x ≤ hi) :
    clamp lo hi x = x := by
  unfold clamp
  rw [max_eq_right h1, min_eq_right h2]

/-- Elementwise clamping against a list of ordered bound pairs is
idempotent. -/
theorem zipWith_clamp_idem :
    ∀ (v : List ℚ) (lh : List (ℚ × ℚ)), (∀ p ∈ lh, p.1 ≤ p.2) →
      List.zipWith (fun x p => clamp p.1 p.2 x)
        (List.zipWith (fun x p => clamp p.1 p.2 x) v lh) lh
      = List.zipWith (fun x p => clamp p.1 p.2 x) v lh := by
  intro v
  induction v with
  | nil => intro lh _; simp
  | cons a v ih =>
    intro lh hlh
    cases lh with
    | nil => simp
    | cons p lh' =>
      simp only [List.zipWith_cons_cons]
      rw [clamp_idem _ _ _ (hlh p (List.mem_cons_self p lh'))]
      rw [ih lh' (fun q hq => hlh q (List.mem_cons_of_mem p hq))]

/-- C7: box clipping is idempotent: for every well-formed box (bounds of the
declared dimensionality with `low[i] ≤ high[i]`) and every vector of matching
shape, clipping twice equals clipping once. -/
theorem Box.clip_idem (b : Box) (v : List ℚ) (hwf : b.wf)
    (hv : v.length = b.shape) : (b.clip v).bind b.clip = b.clip v := by
  obtain ⟨hlow, hhigh, hle⟩ := hwf
  rw [Box.clip, if_pos hv, Option.some_bind]
  have hwlen : (List.zipWith (fun x p => clamp p.1 p.2 x) v (b.low.zip b.high)).length
      = b.shape := by
    rw [List.length_zipWith, List.length_zip, hlow, hhigh, hv]
    simp
  rw [Box.clip, if_pos hwlen, zipWith_clamp_idem v (b.low.zip b.high) hle]

/-- C7 witness: the concrete box with bounds `[0, 1]` in dimension one is
well-formed, and clipping the vector `[2]` twice equals clipping it once. -/
theorem Box.clip_idem_witness :
    ((Box.mk [0] [1] 1).wf ∧ ([(2 : ℚ)] : List ℚ).length = (Box.mk [0] [1] 1).shape)
    ∧ ((Box.mk [0] [1] 1).clip [2]).bind (Box.mk [0] [1] 1).clip
        = (Box.mk [0] [1] 1).clip [2] :=
  ⟨⟨⟨rfl, rfl, by decide⟩, rfl⟩, Box.clip_idem (Box.mk [0] [1] 1) [2] ⟨rfl, rfl, by decide⟩ rfl⟩

/-- The largest finite float64 value, `(2^53 - 1) * 2^971`, as an exact
rational; `jnp.finfo(jnp.float64).min` is its negation. -/
def float64_max : ℚ := (2 ^ 53 - 1) * 2 ^ 971

/-- The driver's state dimensionality (`state_dim = 2`). -/
def state_dim : Nat := 2

/-- The driver's state-space box: every lower bound is the smallest finite
float64 value and every upper bound the largest, so the box spans the whole
finite float64 range. -/
def state_space : Box :=
  Box.mk (List.replicate state_dim (-float64_max))
    (List.replicate state_dim float64_max) state_dim

/-- C10: the driver's state-space box spans the full finite float64 range, so
clipping any state vector with finite (hence bounded by `float64_max` in
absolute value) components returns it unchanged: the driver's clipping of the
advanced true state never changes it and state constraints are never
active. -/
theorem state_space_clip_id (v : List ℚ) (hlen : v.length = state_dim)
    (hfin : ∀ x ∈ v, |x| ≤ float64_max) : state_space.clip v = some v := by
  cases v with
  | nil => simp [state_dim] at hlen
  | cons a v' =>
    cases v' with
    | nil => simp [state_dim] at hlen
    | cons b v'' =>
      cases v'' with
      | cons c v3 => simp [state_dim] at hlen
      | nil =>
        have ha := abs_le.mp (hfin a (by simp))
        have hb := abs_le.mp (hfin b (by simp))
        rw [Box.clip, if_pos (by rfl)]
        show some [clamp (-float64_max) float64_max a,
          clamp (-float64_max) float64_max b] = some [a, b]
        rw [clamp_of_mem _ _ _ ha.1 ha.2, clamp_of_mem _ _ _ hb.1 hb.2]

/-- The components of the concrete state `[1, 0]` are bounded by the largest
finite float64 value. -/
theorem concrete_state_finite :
    ∀ x ∈ ([(1 : ℚ), 0] : List ℚ), |x| ≤ float64_max := by
  have hpos : (0 : ℚ) < float64_max := by rw [float64_max]; norm_num
  intro x hx
  simp only [List.mem_cons, List.not_mem_nil, or_false] at hx
  rcases hx with rfl | rfl
  · rw [abs_one, float64_max]; norm_num
  · rw [abs_zero]; exact le_of_lt hpos

/-- C10 witness: clipping the concrete finite state `[1, 0]` through the
driver's state-space box returns it unchanged. -/
theorem state_space_clip_id_witness :
    (([(1 : ℚ), 0] : List ℚ).length = state_dim
      ∧ ∀ x ∈ ([(1 : ℚ), 0] : List ℚ), |x| ≤ float64_max)
    ∧ state_space.clip [1, 0] = some [1, 0] :=
  ⟨⟨rfl, concrete_state_finite⟩, state_space_clip_id [1, 0] rfl concrete_state_finite⟩

/-- The pendulum dynamics callback of the driving script, over an abstract
sine routine (`jnp.sin` is external numerics): physical constants, the
destructuring of the state into position and velocity, and the returned
derivative vector follow the source. -/
def pendulum (sin : ℚ → ℚ) (state : List ℚ) (action : List ℚ)
    (time : Nat) : List ℚ :=
  let gravity : ℚ := 981 / 100
  let length : ℚ := 1
  let mass : ℚ := 1
  let damping : ℚ := 1 / 1000
  let position := state.getD 0 0
  let velocity := state.getD 1 0
  [velocity,
    -gravity / length * sin position
      + (action.getD 0 0 - damping * velocity) / (mass * length ^ 2)]

/-- C9: the pendulum dynamics callback is time-invariant: the time argument
has no effect on the returned derivative. -/
theorem pendulum_time_invariant (sin : ℚ → ℚ) (state action : List ℚ)
    (t1 t2 : Nat) : pendulum sin state action t1 = pendulum sin state action t2 := rfl

/-- Pointwise addition of rational vectors (elementwise `+`). -/
def vadd (v w : List ℚ) : List ℚ := List.zipWith (· + ·) v w

/-- Scalar multiplication of a rational vector. -/
def smul (c : ℚ) (v : List ℚ) : List ℚ := v.map (fun x => c * x)

/-- `vadd` on cons cells. -/
theorem vadd_cons (x y : ℚ) (a b : List ℚ) :
    vadd (x :: a) (y :: b) = (x + y) :: vadd a b := rfl

/-- `vadd` is associative (componentwise on the common prefix). -/
theorem vadd_assoc : ∀ a b c : List ℚ, vadd (vadd a b) c = vadd a (vadd b c) := by
  intro a
  induction a with
  | nil => intro b c; simp [vadd]
  | cons x a ih =>
    intro b c
    cases b with
    | nil => simp [vadd]
    | cons y b =>
      cases c with
      | nil => simp [vadd]
      | cons z c =>
        rw [vadd_cons, vadd_cons, vadd_cons, vadd_cons, ih b c, add_assoc]

/-- Adding two scalings of the same vector scales by the sum. -/
theorem vadd_smul_smul (b c : ℚ) : ∀ v : List ℚ,
    vadd (smul b v) (smul c v) = smul (b + c) v := by
  intro v
  induction v with
  | nil => rfl
  | cons x v ih =>
    simp only [smul, List.map_cons, vadd_cons, List.cons.injEq]
    exact ⟨by ring, ih⟩

/-- Scaling a scaled vector multiplies the scalars. -/
theorem smul_smul_list (b c : ℚ) (v : List ℚ) :
    smul b (smul c v) = smul (b * c) v := by
  simp only [smul, List.map_map]
  congr 1
  funext x
  simp [Function.comp]
  ring

/-- Scaling by one is the identity. -/
theorem smul_one_list (v : List ℚ) : smul 1 v = v := by simp [smul]

/-- Scaling preserves length. -/
theorem smul_length (c : ℚ) (v : List ℚ) : (smul c v).length = v.length := by
  simp [smul]

/-- Adding a zero-scaled vector of matching length is the identity. -/
theorem vadd_smul_zero : ∀ (s v : List ℚ), s.length = v.length →
    vadd s (smul 0 v) = s := by
  intro s
  induction s with
  | nil => intro v h; rfl
  | cons x s ih =>
    intro v h
    cases v with
    | nil => simp at h
    | cons y v =>
      rw [show smul (0 : ℚ) (y :: v) = (0 * y) :: smul 0 v from rfl, vadd_cons,
        zero_mul, add_zero, ih v (by simpa using h)]

/-- Modelled from the spec: one fixed sub-step of the recommended 4th-order
Runge–Kutta scheme, of size `dt`, holding the action constant. -/
def rk4_step (ode : List ℚ → List ℚ → Nat → List ℚ) (dt : ℚ)
    (state action : List ℚ) (time : Nat) : List ℚ :=
  let k1 := ode state action time
  let k2 := ode (vadd state (smul (dt / 2) k1)) action time
  let k3 := ode (vadd state (smul (dt / 2) k2)) action time
  let k4 := ode (vadd state (smul dt k3)) action time
  vadd state (smul (dt / 6) (vadd k1 (vadd (smul 2 k2) (vadd (smul 2 k3) k4))))

/-- Modelled from the spec: the sub-stepping loop of the discretized
transition: `K` sub-steps of the fixed-step integrator, each of size `dt`,
with the action held constant across all of them (zero-order hold). -/
def substeps (ode : List ℚ → List ℚ → Nat → List ℚ) (dt : ℚ) :
    Nat → List ℚ → List ℚ → Nat → List ℚ
  | 0, state, _, _ => state
  | k + 1, state, action, time =>
    substeps ode dt k (rk4_step ode dt state action time) action time

/-- Modelled from the spec: `tox.utils.discretize_dynamics` wraps a
continuous right-hand side `ode` into a discrete transition that performs
`downsampling` sub-steps of the fixed-step integrator, each of size
`simulation_step`, holding the action constant, so that the control period
equals `simulation_step * downsampling`. -/
def discretize_dynamics (ode : List ℚ → List ℚ → Nat → List ℚ)
    (simulation_step : ℚ) (downsampling : Nat) :
    List ℚ → List ℚ → Nat → List ℚ :=
  fun state action time => substeps ode simulation_step downsampling state action time

/-- The sub-stepping loop is the `K`-fold iterate of one sub-step under the
held action. -/
theorem substeps_eq_iterate (ode : List ℚ → List ℚ → Nat → List ℚ) (dt : ℚ) :
    ∀ (K : Nat) (s a : List ℚ) (t : Nat),
      substeps ode dt K s a t = (fun x => rk4_step ode dt x a t)^[K] s := by
  intro K
  induction K with
  | zero => intro s a t; rfl
  | succ K ih =>
    intro s a t
    rw [substeps, Function.iterate_succ_apply]
    exact ih (rk4_step ode dt s a t) a t

/-- One RK4 sub-step under a constant derivative advances the state by
`dt` times the derivative. -/
theorem rk4_step_const (v : List ℚ) (dt : ℚ) (s a : List ℚ) (t : Nat) :
    rk4_step (fun _ _ _ => v) dt s a t = vadd s (smul dt v) := by
  show vadd s (smul (dt / 6) (vadd v (vadd (smul 2 v) (vadd (smul 2 v) v))))
    = vadd s (smul dt v)
  have h1 : vadd (smul 2 v) v = smul 3 v := by
    nth_rewrite 2 [show v = smul 1 v from (smul_one_list v).symm]
    rw [vadd_smul_smul]
    norm_num
  have h2 : vadd v (vadd (smul 2 v) (smul 3 v)) = smul 6 v := by
    rw [vadd_smul_smul]
    nth_rewrite 1 [show v = smul 1 v from (smul_one_list v).symm]
    rw [vadd_smul_smul]
    norm_num
  rw [h1, h2, smul_smul_list]
  congr 2
  ring

/-- `K` sub-steps under a constant derivative advance the state by
`K * dt` times the derivative. -/
theorem substeps_const (v : List ℚ) (dt : ℚ) :
    ∀ (K : Nat) (s a : List ℚ) (t : Nat), s.length = v.length →
      substeps (fun _ _ _ => v) dt K s a t = vadd s (smul ((K : ℚ) * dt) v) := by
  intro K
  induction K with
  | zero =>
    intro s a t h
    rw [substeps, Nat.cast_zero, zero_mul, vadd_smul_zero s v h]
  | succ K ih =>
    intro s a t h
    rw [substeps, rk4_step_const]
    rw [ih (vadd s (smul dt v)) a t
      (by rw [vadd, List.length_zipWith, smul_length, h, min_self])]
    rw [vadd_assoc, vadd_smul_smul]
    congr 2
    push_cast
    ring

/-- C4: the discrete transition produced by `discretize_dynamics` performs
exactly `downsampling` sub-steps of the fixed-step RK4 integrator, each of
size `simulation_step`, with the action held constant across all sub-steps;
consequently, under a constant-derivative right-hand side the state advances
by `simulation_step * downsampling` times the derivative, i.e. the resulting
control period equals `simulation_step * downsampling`. -/
theorem discretize_dynamics_spec (ode : List ℚ → List ℚ → Nat → List ℚ)
    (simulation_step : ℚ) (downsampling : Nat) (s a : List ℚ) (t : Nat)
    (v : List ℚ) (h : s.length = v.length) :
    discretize_dynamics ode simulation_step downsampling s a t
      = (fun x => rk4_step ode simulation_step x a t)^[downsampling] s
    ∧ discretize_dynamics (fun _ _ _ => v) simulation_step downsampling s a t
      = vadd s (smul (simulation_step * (downsampling : ℚ)) v) := by
  constructor
  · exact substeps_eq_iterate ode simulation_step downsampling s a t
  · rw [show discretize_dynamics (fun _ _ _ => v) simulation_step downsampling s a t
        = substeps (fun _ _ _ => v) simulation_step downsampling s a t from rfl]
    rw [substeps_const v simulation_step downsampling s a t h, mul_comm]

/-- C4 witness: two half-steps under the constant derivative `[1]` advance
the state `[0]` by the control period `1/2 * 2 = 1`. -/
theorem discretize_dynamics_spec_witness :
    ([(0 : ℚ)] : List ℚ).length = ([(1 : ℚ)] : List ℚ).length
    ∧ (discretize_dynamics (fun _ _ _ => [(1 : ℚ)]) (1 / 2) 2 [0] [] 0
        = (fun x => rk4_step (fun _ _ _ => [(1 : ℚ)]) (1 / 2) x [] 0)^[2] [0]
      ∧ discretize_dynamics (fun _ _ _ => [(1 : ℚ)]) (1 / 2) 2 [0] [] 0
        = vadd [0] (smul ((1 / 2) * ((2 : Nat) : ℚ)) [1])) :=
  ⟨rfl, discretize_dynamics_spec (fun _ _ _ => [(1 : ℚ)]) (1 / 2) 2 [0] [] 0 [1] rfl⟩

/-- The driver's solver horizon (`horizon = 25`). -/
def horizon : Nat := 25

/-- The driver's action dimensionality (`action_dim = 1`). -/
def action_dim : Nat := 1

/-- Modelled from the spec: `tox.objects.Trajectory`, a sequence of states
one longer than its sequence of actions. -/
structure Trajectory : Type where
  state : List (List ℚ)
  action : List (List ℚ)
deriving DecidableEq, Repr

/-- The zero-initialized warm-start reference the driver builds before the
loop: `horizon + 1` zero states and `horizon` zero actions. -/
def initialReference : Trajectory :=
  Trajectory.mk (List.replicate (horizon + 1) (List.replicate state_dim 0))
    (List.replicate horizon (List.replicate action_dim 0))

/-- One outer step of the MPC driver loop as logged data: the warm-start
inputs given to that step's solver call, the solver call's outputs, and the
applied action and resulting logged state. -/
structure StepRecord (σ α P T : Type) : Type where
  time : Nat
  stateIn : σ
  policyIn : P
  refIn : T
  policyOut : P
  refOut : T
  trace : List ℚ
  action : α
  stateOut : σ

/-- The MPC driver loop of the driving script, embedded from the source: at
each outer step `t` it calls the solver on the current logged state with the
current warm-start policy and reference, logs the first action of the
returned reference as the applied action, advances the true state through
the discretized dynamics under that action, clips the result into the state
space, and continues with the solver outputs as the next step's warm start.
`solver` abstracts `ilqr.py_solver` (whose body is not part of the visible
source), `dyn` the discretized dynamics, `clipState` the state-space clip
and `firstAction` the extraction `reference.action[0]`. -/
def mpcLoop {σ α P T : Type} (solver : σ → P → T → P × T × List ℚ)
    (dyn : σ → α → Nat → σ) (clipState : σ → σ) (firstAction : T → α) :
    Nat → Nat → σ → P → T → List (StepRecord σ α P T)
  | 0, _, _, _, _ => []
  | n + 1, t, s, p, r =>
    let res := solver s p r
    let a := firstAction res.2.1
    let s' := clipState (dyn s a t)
    StepRecord.mk t s p r res.1 res.2.1 res.2.2 a s'
      :: mpcLoop solver dyn clipState firstAction n (t + 1) s' res.1 res.2.1

/-- The first record of a nonempty MPC run carries the loop's entry values as
its inputs. -/
theorem mpcLoop_head {σ α P T : Type} (solver : σ → P → T → P × T × List ℚ)
    (dyn : σ → α → Nat → σ) (clipState : σ → σ) (firstAction : T → α)
    (n t : Nat) (s : σ) (p : P) (r : T) :
    ∀ rec ∈ (mpcLoop solver dyn clipState firstAction n t s p r).head?,
      rec.time = t ∧ rec.stateIn = s ∧ rec.policyIn = p ∧ rec.refIn = r := by
  cases n with
  | zero => intro rec h; simp [mpcLoop] at h
  | succ n =>
    intro rec h
    rw [mpcLoop] at h
    simp only [List.head?_cons, Option.mem_def, Option.some.injEq] at h
    subst h
    exact ⟨rfl, rfl, rfl, rfl⟩

/-- Per-record consistency of an MPC step with the source's loop body: the
logged action is the first action of the reference returned by the step's
solver call, and the logged next state is the state-space clip of the
discretized dynamics applied to the step's current logged state, the logged
action and the step index. -/
def stepConsistent {σ α P T : Type} (dyn : σ → α → Nat → σ)
    (clipState : σ → σ) (firstAction : T → α)
    (rec : StepRecord σ α P T) : Prop :=
  rec.action = firstAction rec.refOut
    ∧ rec.stateOut = clipState (dyn rec.stateIn rec.action rec.time)

/-- C2: at every outer MPC step, the logged applied action equals the first
action of the reference returned by that step's solver call, and the next
logged true state equals the state-space clip of the discretized dynamics on
the current logged state and that action; consecutive records chain (next
step's state input is this step's logged state, times increase by one), so
the logged sequences satisfy `action[t] = reference_t.action[0]` and
`state[t+1] = clip(dynamics(state[t], action[t], t))`. -/
theorem mpcLoop_step_consistent {σ α P T : Type}
    (solver : σ → P → T → P × T × List ℚ) (dyn : σ → α → Nat → σ)
    (clipState : σ → σ) (firstAction : T → α)
    (n t : Nat) (s : σ) (p : P) (r : T) :
    (∀ rec ∈ mpcLoop solver dyn clipState firstAction n t s p r,
      stepConsistent dyn clipState firstAction rec)
    ∧ List.Chain' (fun r1 r2 => r2.stateIn = r1.stateOut ∧ r2.time = r1.time + 1)
        (mpcLoop solver dyn clipState firstAction n t s p r) := by
  induction n generalizing t s p r with
  | zero => exact ⟨by intro rec h; simp [mpcLoop] at h, by simp [mpcLoop]⟩
  | succ n ih =>
    rw [mpcLoop]
    constructor
    · intro rec h
      rcases List.mem_cons.mp h with h | h
      · subst h; exact ⟨rfl, rfl⟩
      · exact (ih (t + 1) _ _ _).1 rec h
    · rw [List.chain'_cons']
      refine ⟨?_, (ih (t + 1) _ _ _).2⟩
      intro rec h
      have := mpcLoop_head solver dyn clipState firstAction n (t + 1) _ _ _ rec h
      exact ⟨this.2.1, this.1⟩

/-- C3: receding-horizon warm start: every MPC step's solver call after the
first receives exactly the policy and reference returned by the previous
step's call, and the first step's call receives the `(policy, reference)`
pair the loop was entered with — in the driver, the initial policy and the
zero-initialized reference `initialReference`. -/
theorem mpcLoop_warm_start {σ α P T : Type}
    (solver : σ → P → T → P × T × List ℚ) (dyn : σ → α → Nat → σ)
    (clipState : σ → σ) (firstAction : T → α)
    (n t : Nat) (s : σ) (p : P) (r : T) :
    List.Chain' (fun r1 r2 => r2.policyIn = r1.policyOut ∧ r2.refIn = r1.refOut)
        (mpcLoop solver dyn clipState firstAction n t s p r)
    ∧ (mpcLoop solver dyn clipState firstAction (n + 1) t s p r).head?.map
        (fun rec => (rec.policyIn, rec.refIn)) = some (p, r) := by
  constructor
  · induction n generalizing t s p r with
    | zero => simp [mpcLoop]
    | succ n ih =>
      rw [mpcLoop, List.chain'_cons']
      refine ⟨?_, ih (t + 1) _ _ _⟩
      intro rec h
      have := mpcLoop_head solver dyn clipState firstAction n (t + 1) _ _ _ rec h
      exact ⟨this.2.2.1, this.2.2.2⟩
  · rw [mpcLoop]
    rfl

/-- Concrete solver stub for exercising the driver loop: keeps the policy,
returns a reference holding the current state plus one, and a singleton
trace. -/
def wSolver : ℚ → Unit → ℚ → Unit × ℚ × List ℚ := fun s _ _ => ((), s + 1, [s])

/-- Concrete scalar dynamics for exercising the driver loop. -/
def wDyn : ℚ → ℚ → Nat → ℚ := fun s a _ => s + a

/-- Concrete solver stub over `Trajectory` references for exercising the
warm-start wiring: returns the received reference unchanged. -/
def wSolverT : ℚ → Unit → Trajectory → Unit × Trajectory × List ℚ :=
  fun s _ r => ((), r, [s])

/-- Extraction of the first action of a `Trajectory`, `reference.action[0]`. -/
def wFirstAction : Trajectory → List ℚ := fun r => r.action.getD 0 []

/-- Concrete dynamics over vector actions for exercising the warm-start
wiring. -/
def wDynT : ℚ → List ℚ → Nat → ℚ := fun s a _ => s + a.getD 0 0

/-- C2 witness: the per-step consistency and state chaining hold on a
concrete two-step run of the loop. -/
theorem mpcLoop_step_consistent_witness :
    (∀ rec ∈ mpcLoop wSolver wDyn id id 2 0 0 () 0,
      stepConsistent wDyn id id rec)
    ∧ List.Chain' (fun r1 r2 => r2.stateIn = r1.stateOut ∧ r2.time = r1.time + 1)
        (mpcLoop wSolver wDyn id id 2 0 0 () 0) :=
  mpcLoop_step_consistent wSolver wDyn id id 2 0 0 () 0

/-- C3 witness: the warm-start chaining holds on a concrete run entered with
the zero-initialized reference, whose first solver call receives exactly the
initial policy and `initialReference`. -/
theorem mpcLoop_warm_start_witness :
    List.Chain' (fun r1 r2 => r2.policyIn = r1.policyOut ∧ r2.refIn = r1.refOut)
        (mpcLoop wSolverT wDynT id wFirstAction 1 0 (1 / 100) () initialReference)
    ∧ (mpcLoop wSolverT wDynT id wFirstAction 2 0 (1 / 100) () initialReference).head?.map
        (fun rec => (rec.policyIn, rec.refIn)) = some ((), initialReference) :=
  mpcLoop_warm_start wSolverT wDynT id wFirstAction 1 0 (1 / 100) () initialReference

end Tox
